import Mathlib

/-!
Verification of the DAG commit rule (consensus/src/dag/commit_rule.rs).

The commit rule converts a round-based DAG of certified nodes into a total
order.  The `CommitRule` struct holds an ordered-block id, a cursor
`lowest_unordered_round`, the shared DAG, an anchor-election capability and a
channel of `OrderedBlocks` messages.  This file embeds the four methods of
`CommitRule` — `new_node`, `find_first_anchor_with_enough_votes`,
`find_first_anchor_to_commit` and `finalize_order` — as executable Lean
functions over an explicit state, and proves / refutes the specification's
claims about them.

The DAG store (`get_node_by_round_author`, `check_votes_for_node`,
`reachable`, `reachable_mut`, the ordered flag) and the anchor election are
collaborators whose sources are not part of the repository snapshot; they are
modelled from the specification's interface contract (spec sections 4.1 and
4.2): node lookup by (round, author), a 2f+1 stake threshold over the votes
at `round + 1`, and a deterministic topological enumeration of the causal
ancestors above a floor round, sorted by (round, author, digest), that
includes the start node.

The two unbounded loops of the source (the `while let` of
`find_first_anchor_to_commit` and the driver loop of `new_node`) are embedded
with an explicit fuel argument; `none` means the fuel ran out, so a result
that is `none` for every fuel is a non-terminating execution.  The bounded
scan of `find_first_anchor_with_enough_votes` (`while current_round <
target_round { ...; current_round += 2 }`) is embedded with the gas
`target_round - current_round`, which dominates the number of iterations of
the source loop, so the embedding computes exactly the loop's result.
-/

namespace DagCommit

/- Rounds, authors and digests are all embedded as `Nat`: a round
(`aptos_consensus_types::common::Round` is `u64`; round arithmetic here never
overflows, values stay far below `2^64`), a validator identifier within the
epoch, and a node digest (`HashValue`, only compared for equality). -/

/-- A certified node: metadata `(round, author, digest)` plus the digests of its
parents, which live one round below. -/
structure CertifiedNode where
  round : Nat
  author : Nat
  digest : Nat
  parents : List Nat
deriving DecidableEq, Repr

/-- Modelled from the spec: the `OrderedBlocks` message sent to the downstream
sink — one commit batch. -/
structure OrderedBlocks where
  ordered_block_id : Nat
  blocks : List CertifiedNode
deriving DecidableEq, Repr

/-- Modelled from the spec: the DAG store (`dag_store.rs` is not in the
snapshot): the certified nodes plus, for each node, an ordered flag,
represented as the list of digests whose flag is `true`. -/
structure Dag where
  nodes : List CertifiedNode
  orderedDigests : List Nat
deriving DecidableEq, Repr

/-- Boolean membership of a digest in a list (kept as a plain recursion so all
model functions evaluate by kernel reduction). -/
def memD (x : Nat) : List Nat → Bool
  | [] => false
  | y :: rest => x == y || memD x rest

/-- Whether the node with digest `dg` has its ordered flag set in `d`. -/
def node_is_ordered (d : Dag) (dg : Nat) : Bool :=
  memD dg d.orderedDigests

/-- Modelled from the spec: `Dag::get_node_by_round_author(round, author)`,
the node lookup used by the anchor search. -/
def get_node_by_round_author (d : Dag) (r : Nat) (a : Nat) : Option CertifiedNode :=
  d.nodes.find? (fun n => n.round == r && n.author == a)

/-- The nodes at `n.round + 1` that list `n` among their parents: the votes
for an anchor `n`. -/
def votes_for_node (d : Dag) (n : CertifiedNode) : List CertifiedNode :=
  d.nodes.filter (fun v => v.round == n.round + 1 && memD n.digest v.parents)

/-- Authors with duplicates removed ("the set of authors of its votes"). -/
def dedupAuthors : List Nat → List Nat
  | [] => []
  | a :: rest => if rest.contains a then dedupAuthors rest else a :: dedupAuthors rest

/-- Total stake of a list of authors. -/
def sumStake (stake : Nat → Nat) : List Nat → Nat
  | [] => 0
  | a :: rest => stake a + sumStake stake rest

/-- The state of the `CommitRule` struct: the persistent cursor
`(ordered_block_id, lowest_unordered_round)`, the DAG behind the lock, the
anchor election (`get_anchor`), the epoch verifier (modelled from the spec as
a stake map and the 2f+1 threshold), and the trace of messages sent on
`commit_sender` (the downstream channel). -/
structure CommitRuleState where
  ordered_block_id : Nat
  lowest_unordered_round : Nat
  dag : Dag
  get_anchor : Nat → Nat
  stake : Nat → Nat
  quorumThreshold : Nat
  emitted : List OrderedBlocks

/-- Modelled from the spec: `Dag::check_votes_for_node(metadata, verifier)` —
true iff the authors voting for the node carry stake at or above the
verifier's quorum threshold. -/
def check_votes_for_node (s : CommitRuleState) (n : CertifiedNode) : Bool :=
  decide (s.quorumThreshold ≤
    sumStake s.stake (dedupAuthors ((votes_for_node s.dag n).map (fun v => v.author))))

/-- Parents contributed by the frontier nodes at round `r`. -/
def reachStep (nodes : List CertifiedNode) (r : Nat) (frontier : List Nat) : List Nat :=
  (nodes.filter (fun n => n.round == r && memD n.digest frontier)).foldr
    (fun n acc => n.parents ++ acc) []

/-- All digests reachable from the frontier, walking parent edges down `k`
rounds starting at round `r` (parents of round-`r` nodes live at `r - 1`). -/
def reachClosure (nodes : List CertifiedNode) : Nat → Nat → List Nat → List Nat
  | 0, _, frontier => frontier
  | k + 1, r, frontier => frontier ++ reachClosure nodes k (r - 1) (reachStep nodes r frontier)

/-- The fixed total order on (round, author, digest) the spec requires of the
topological enumeration. -/
def nodeLE (a b : CertifiedNode) : Bool :=
  decide (a.round < b.round) ||
    (a.round == b.round &&
      (decide (a.author < b.author) || (a.author == b.author && decide (a.digest ≤ b.digest))))

/-- Insertion into a `nodeLE`-sorted list. -/
def insertNode (a : CertifiedNode) : List CertifiedNode → List CertifiedNode
  | [] => [a]
  | b :: rest => if nodeLE a b then a :: b :: rest else b :: insertNode a rest

/-- Insertion sort by `nodeLE`: parents (lower rounds) are enumerated before
children, siblings in the fixed (round, author, digest) order. -/
def sortNodes : List CertifiedNode → List CertifiedNode
  | [] => []
  | a :: rest => insertNode a (sortNodes rest)

/-- Modelled from the spec: `Dag::reachable(start, floor)` — every node
reachable from `start` via parent edges (including `start` itself) whose
round is at least the floor (0 when the floor is `none`), in the
deterministic topological order. -/
def reachable (d : Dag) (start : CertifiedNode) (floorR : Option Nat) : List CertifiedNode :=
  sortNodes (d.nodes.filter
    (fun n => decide (floorR.getD 0 ≤ n.round) && decide (n.round ≤ start.round) &&
      memD n.digest
        (reachClosure d.nodes (start.round - floorR.getD 0) start.round [start.digest])))

/-- Modelled from the spec: `Dag::reachable_mut(start, floor)` — the same
enumeration as `reachable`; the mutation it permits is `mark_as_ordered`,
modelled by `mark_all_as_ordered` below. -/
def reachable_mut (d : Dag) (start : CertifiedNode) (floorR : Option Nat) :
    List CertifiedNode :=
  reachable d start floorR

/-- Modelled from the spec: `NodeStatus::mark_as_ordered` applied to each
yielded node — the listed digests get their ordered flag set. -/
def mark_all_as_ordered (d : Dag) (digs : List Nat) : Dag :=
  { d with orderedDigests := d.orderedDigests ++ digs }

/-- The body of the anchor-search loop of `find_first_anchor_with_enough_votes`
(commit_rule.rs lines 60-75): `while current_round < target_round` look up the
elected anchor's node, return it if it has enough votes, else step the round
by 2.  `gas` bounds the remaining iterations; the first component records
every round the loop examined (called `get_anchor` / `get_node...` on). -/
def searchGo (s : CommitRuleState) (targetRound : Nat) :
    Nat → Nat → List Nat × Option CertifiedNode
  | 0, _ => ([], none)
  | gas + 1, currentRound =>
    if currentRound < targetRound then
      match get_node_by_round_author s.dag currentRound (s.get_anchor currentRound) with
      | some anchorNode =>
        if check_votes_for_node s anchorNode then
          ([currentRound], some anchorNode)
        else
          let rest := searchGo s targetRound gas (currentRound + 2)
          (currentRound :: rest.1, rest.2)
      | none =>
        let rest := searchGo s targetRound gas (currentRound + 2)
        (currentRound :: rest.1, rest.2)
    else ([], none)

/-- The anchor-search loop started at `currentRound`.  The gas
`targetRound - currentRound` is at least the number of iterations of the
source loop (which advances the round by 2 each time), so the embedding
returns exactly what the loop returns. -/
def anchorSearchFrom (s : CommitRuleState) (targetRound currentRound : Nat) :
    List Nat × Option CertifiedNode :=
  searchGo s targetRound (targetRound - currentRound) currentRound

/-- `CommitRule::find_first_anchor_with_enough_votes` (commit_rule.rs lines
55-77): scan from `lowest_unordered_round`. -/
def find_first_anchor_with_enough_votes (s : CommitRuleState) (targetRound : Nat) :
    Option CertifiedNode :=
  (anchorSearchFrom s targetRound s.lowest_unordered_round).2

/-- The rounds `find_first_anchor_with_enough_votes` examines. -/
def examinedRounds (s : CommitRuleState) (targetRound : Nat) : List Nat :=
  (anchorSearchFrom s targetRound s.lowest_unordered_round).1

/-- What one scanned round contributes to the anchor search: the node at
`(r, get_anchor(r))` when it exists and `check_votes_for_node` holds for it,
`none` otherwise. -/
def anchor_hit (s : CommitRuleState) (r : Nat) : Option CertifiedNode :=
  match get_node_by_round_author s.dag r (s.get_anchor r) with
  | some n => if check_votes_for_node s n then some n else none
  | none => none

/-- The `is_anchor` closure of `find_first_anchor_to_commit` (commit_rule.rs
lines 84-87): same round parity as the direct anchor's round, and the author
is the elected anchor of the node's round. -/
def is_anchor (s : CommitRuleState) (anchorRound : Nat) (n : CertifiedNode) : Bool :=
  ((n.round ^^^ anchorRound) &&& 1 == 0) && (n.author == s.get_anchor n.round)

/-- The `while let` loop of `find_first_anchor_to_commit` (commit_rule.rs
lines 88-95): as long as some node enumerated by
`reachable(current_anchor, Some(lowest_unordered_round))` satisfies
`is_anchor`, replace `current_anchor` by the first such node; on exit return
`current_anchor`.  `fuel` bounds the iterations: `none` means the loop was
still running when the fuel ran out. -/
def backfillLoop (s : CommitRuleState) (anchorRound : Nat) :
    Nat → CertifiedNode → Option CertifiedNode
  | 0, _ => none
  | fuel + 1, currentAnchor =>
    match (reachable s.dag currentAnchor (some s.lowest_unordered_round)).find?
        (fun n => is_anchor s anchorRound n) with
    | some nextAnchor => backfillLoop s anchorRound fuel nextAnchor
    | none => some currentAnchor

/-- `CommitRule::find_first_anchor_to_commit` (commit_rule.rs lines 79-97):
fix `anchor_round` to the direct anchor's round, then run the loop. -/
def find_first_anchor_to_commit (s : CommitRuleState) (fuel : Nat)
    (currentAnchor : CertifiedNode) : Option CertifiedNode :=
  backfillLoop s currentAnchor.round fuel currentAnchor

/-- The round range `(lowest_unordered_round..anchor.round).step_by(2)` used
for the failed-anchor computation in `finalize_order`, via the same gas
bound as the search scan. -/
def stepTwoGo (t : Nat) : Nat → Nat → List Nat
  | 0, _ => []
  | gas + 1, c => if c < t then c :: stepTwoGo t gas (c + 2) else []

/-- The rounds `c, c + 2, ...` strictly below `t`. -/
def stepTwoRange (c t : Nat) : List Nat :=
  stepTwoGo t (t - c) c

/-- `CommitRule::finalize_order` (commit_rule.rs lines 99-114): compute the
failed anchors (the result is dropped, as in the source's `_failed_anchors`),
set `lowest_unordered_round` to `anchor.round() + 1`, and mark every node
yielded by `reachable_mut(anchor, None)` as ordered (the collected
`_commit_nodes` are likewise dropped: nothing is sent on `commit_sender` and
`ordered_block_id` is not touched). -/
def finalize_order (s : CommitRuleState) (anchor : CertifiedNode) : CommitRuleState :=
  let _failed_anchors :=
    (stepTwoRange s.lowest_unordered_round anchor.round).map s.get_anchor
  let s1 := { s with lowest_unordered_round := anchor.round + 1 }
  let commit_nodes := reachable_mut s1.dag anchor none
  { s1 with dag := mark_all_as_ordered s1.dag (commit_nodes.map (fun n => n.digest)) }

/-- `CommitRule::new_node` (commit_rule.rs lines 43-53): while the cursor is
at or below the new node's round, search for a direct anchor; if found,
backfill and finalize, else break.  `fuel` bounds the driver iterations and
the backfill loop; `none` means some loop was still running at fuel 0. -/
def new_node : Nat → CommitRuleState → CertifiedNode → Option CommitRuleState
  | 0, _, _ => none
  | fuel + 1, s, node =>
    if s.lowest_unordered_round ≤ node.round then
      match find_first_anchor_with_enough_votes s node.round with
      | some directAnchor =>
        match find_first_anchor_to_commit s fuel directAnchor with
        | some commitAnchor => new_node fuel (finalize_order s commitAnchor) node
        | none => none
      | none => some s
    else some s

/-! ## Concrete instances

A one-validator epoch (author 0, stake 1, quorum threshold 1, round-robin
election electing author 0 everywhere).  `nodeA` is the anchor at round 1,
`nodeV` its vote at round 2; `stA` the commit rule right after `new`
(ledger round 0, so the cursor is 1). -/

def nodeA : CertifiedNode := ⟨1, 0, 10, []⟩

def nodeV : CertifiedNode := ⟨2, 0, 20, [10]⟩

def dagA : Dag := ⟨[nodeA, nodeV], []⟩

def stA : CommitRuleState :=
  { ordered_block_id := 99
    lowest_unordered_round := 1
    dag := dagA
    get_anchor := fun _ => 0
    stake := fun _ => 1
    quorumThreshold := 1
    emitted := [] }

/-- A three-round chain for the backfill-termination claim: anchor `nodeB1`
at round 1, vote `nodeB2` at round 2, `nodeB3` at round 3. -/
def nodeB1 : CertifiedNode := ⟨1, 0, 11, []⟩

def nodeB2 : CertifiedNode := ⟨2, 0, 12, [11]⟩

def nodeB3 : CertifiedNode := ⟨3, 0, 13, [12]⟩

def dagB : Dag := ⟨[nodeB1, nodeB2, nodeB3], []⟩

def stB : CommitRuleState :=
  { ordered_block_id := 98
    lowest_unordered_round := 1
    dag := dagB
    get_anchor := fun _ => 0
    stake := fun _ => 1
    quorumThreshold := 1
    emitted := [] }

/-- An empty DAG with the cursor at 1, for the scan-parity counterexample. -/
def stE : CommitRuleState :=
  { ordered_block_id := 97
    lowest_unordered_round := 1
    dag := ⟨[], []⟩
    get_anchor := fun _ => 0
    stake := fun _ => 1
    quorumThreshold := 1
    emitted := [] }

/-- A node below the cursor, for the no-op witnesses. -/
def nodeLow : CertifiedNode := ⟨0, 0, 5, []⟩

/-! ## Non-termination of the backfill loop

On `stA`, the direct anchor `nodeA` is the first node `reachable` (from
`nodeA` itself, floor 1) yields, and it satisfies `is_anchor`, so the
`while let` of `find_first_anchor_to_commit` replaces `current_anchor` by
`nodeA` again on every iteration: the loop never exits. -/

theorem backfillLoopA_none : ∀ fuel, backfillLoop stA 1 fuel nodeA = none := by
  intro fuel
  induction fuel with
  | zero => rfl
  | succ n ih =>
    have hstep :
        (reachable stA.dag nodeA (some stA.lowest_unordered_round)).find?
          (fun n => is_anchor stA 1 n) = some nodeA := by decide
    simp only [backfillLoop, hstep]
    exact ih

theorem backfillLoopB_none : ∀ fuel, backfillLoop stB 1 fuel nodeB1 = none := by
  intro fuel
  induction fuel with
  | zero => rfl
  | succ n ih =>
    have hstep :
        (reachable stB.dag nodeB1 (some stB.lowest_unordered_round)).find?
          (fun n => is_anchor stB 1 n) = some nodeB1 := by decide
    simp only [backfillLoop, hstep]
    exact ih

/-- C1: the claim says `finalize_order` emits the commit batch as one
`OrderedBlocks` message and makes the anchor's id the new
`ordered_block_id`.  The source does neither: the batch is collected into
the discarded `_commit_nodes` vector, nothing is ever sent on
`commit_sender`, and `ordered_block_id` is only written in `new`.  For every
state and anchor, `finalize_order` leaves the emission trace and
`ordered_block_id` unchanged. -/
theorem finalize_order_emits_nothing (s : CommitRuleState) (anchor : CertifiedNode) :
    (finalize_order s anchor).emitted = s.emitted ∧
    (finalize_order s anchor).ordered_block_id = s.ordered_block_id :=
  ⟨rfl, rfl⟩

/-- C2: the claim says `find_first_anchor_to_commit` returns the earliest
committable anchor.  On `stA` the anchor search at target round 2 finds the
direct anchor `nodeA` (round 1, the earliest anchor, so the loop should
return it at once), yet `find_first_anchor_to_commit` never returns: its
`while let` loop runs out of any amount of fuel, because `reachable` yields
the current anchor itself and the current anchor satisfies `is_anchor`. -/
theorem find_first_anchor_to_commit_never_returns :
    find_first_anchor_with_enough_votes stA 2 = some nodeA ∧
    ∀ fuel, find_first_anchor_to_commit stA fuel nodeA = none := by
  refine ⟨by decide, fun fuel => ?_⟩
  exact backfillLoopA_none fuel

/-- C5: the claim says the parity of `lowest_unordered_round` never changes.
From the initial state `stA` (ledger round 0, cursor 1, odd), committing the
round-1 anchor `nodeA` runs `finalize_order`, which sets the cursor to
`anchor.round() + 1 = 2`: the parity flips from odd to even. -/
theorem finalize_order_flips_cursor_parity :
    stA.lowest_unordered_round % 2 = 1 ∧
    (finalize_order stA nodeA).lowest_unordered_round % 2 = 0 ∧
    (finalize_order stA nodeA).lowest_unordered_round % 2 ≠
      stA.lowest_unordered_round % 2 := by decide

/-- C7: the claim says `new_node` always terminates.  On `stA`, delivering
the vote `nodeV` (round 2) makes the anchor search find `nodeA`, after which
the driver calls `find_first_anchor_to_commit`, whose loop never exits; so
`new_node` exhausts every amount of fuel. -/
theorem new_node_runs_forever : ∀ fuel, new_node fuel stA nodeV = none := by
  intro fuel
  cases fuel with
  | zero => rfl
  | succ n =>
    have hsearch : find_first_anchor_with_enough_votes stA nodeV.round = some nodeA := by
      decide
    have hbackfill : find_first_anchor_to_commit stA n nodeA = none :=
      backfillLoopA_none n
    have hle : stA.lowest_unordered_round ≤ nodeV.round := by decide
    simp only [new_node, hsearch, hbackfill, if_pos hle]

/-! ## Basic lemmas about the DAG model -/

theorem memD_append (x : Nat) (l1 l2 : List Nat) :
    memD x (l1 ++ l2) = (memD x l1 || memD x l2) := by
  induction l1 with
  | nil => simp [memD]
  | cons y rest ih => simp [memD, ih, Bool.or_assoc]

theorem memD_eq_true_iff {x : Nat} {l : List Nat} : memD x l = true ↔ x ∈ l := by
  induction l with
  | nil => simp [memD]
  | cons y rest ih => simp [memD, ih, List.mem_cons]

theorem mem_insertNode {a b : CertifiedNode} {l : List CertifiedNode} :
    a ∈ insertNode b l ↔ a = b ∨ a ∈ l := by
  induction l with
  | nil => simp [insertNode]
  | cons c rest ih =>
    simp only [insertNode]
    by_cases h : nodeLE b c
    · rw [if_pos h]; simp [List.mem_cons]
    · rw [if_neg h]; simp [List.mem_cons, ih]; tauto

theorem mem_sortNodes {a : CertifiedNode} {l : List CertifiedNode} :
    a ∈ sortNodes l ↔ a ∈ l := by
  induction l with
  | nil => simp [sortNodes]
  | cons b rest ih => simp [sortNodes, mem_insertNode, ih, List.mem_cons]

theorem get_node_by_round_author_spec {d : Dag} {r : Nat} {a : Nat} {n : CertifiedNode}
    (h : get_node_by_round_author d r a = some n) :
    n.round = r ∧ n.author = a ∧ n ∈ d.nodes := by
  unfold get_node_by_round_author at h
  have hp := List.find?_some h
  have hm := List.mem_of_find?_eq_some h
  simp only [Bool.and_eq_true, beq_iff_eq] at hp
  exact ⟨hp.1, hp.2, hm⟩

theorem mem_reachable_round {d : Dag} {start n : CertifiedNode} {f : Nat}
    (h : n ∈ reachable d start (some f)) : f ≤ n.round := by
  unfold reachable at h
  rw [mem_sortNodes] at h
  have hp := (List.mem_filter.mp h).2
  simp only [Option.getD_some, Bool.and_eq_true, decide_eq_true_eq] at hp
  exact hp.1.1

theorem memD_reachClosure (nodes : List CertifiedNode) (x : Nat) :
    ∀ k r l, memD x l = true → memD x (reachClosure nodes k r l) = true := by
  intro k
  induction k with
  | zero => intro r l h; exact h
  | succ m ih => intro r l h; simp [reachClosure, memD_append, h]

theorem start_mem_reachable {d : Dag} {start : CertifiedNode} (hmem : start ∈ d.nodes) :
    start ∈ reachable d start none := by
  unfold reachable
  rw [mem_sortNodes]
  refine List.mem_filter.mpr ⟨hmem, ?_⟩
  simp only [Option.getD_none, Bool.and_eq_true, decide_eq_true_eq]
  refine ⟨⟨Nat.zero_le _, le_refl _⟩, ?_⟩
  exact memD_reachClosure d.nodes start.digest _ _ _ (by simp [memD])

/-- C8: the claim says that on a well-formed DAG `find_first_anchor_to_commit`
terminates and returns an anchor for every direct anchor found by the anchor
search.  `stB`'s DAG is well-formed (unique `(round, author)` pairs, parents
resolving one round below); the search at target round 4 finds the direct
anchor `nodeB1`, and `find_first_anchor_to_commit` on `nodeB1` runs out of
every amount of fuel: the loop keeps re-selecting `nodeB1`, which `reachable`
yields and `is_anchor` accepts. -/
theorem find_first_anchor_to_commit_no_fuel_suffices :
    find_first_anchor_with_enough_votes stB 4 = some nodeB1 ∧
    ∀ fuel, find_first_anchor_to_commit stB fuel nodeB1 = none := by
  refine ⟨by decide, fun fuel => ?_⟩
  exact backfillLoopB_none fuel

/-! ## The scanned rounds -/

theorem mem_stepTwoGo (t : Nat) :
    ∀ g c r, r ∈ stepTwoGo t g c → c ≤ r ∧ r < t ∧ r % 2 = c % 2 := by
  intro g
  induction g with
  | zero => intro c r h; simp [stepTwoGo] at h
  | succ m ih =>
    intro c r h
    unfold stepTwoGo at h
    by_cases hct : c < t
    · rw [if_pos hct] at h
      rcases List.mem_cons.mp h with rfl | h2
      · exact ⟨le_refl _, hct, rfl⟩
      · obtain ⟨ha, hb, hp⟩ := ih (c + 2) r h2
        exact ⟨by omega, hb, by omega⟩
    · rw [if_neg hct] at h
      simp at h

/-- Shifting a least-hit description past a round whose hit is `none`. -/
theorem exists_min_cons {hit : Nat → Option CertifiedNode} {c : Nat}
    {l : List Nat} {N : CertifiedNode} (hc : hit c = none) :
    (∃ r, r ∈ c :: l ∧ hit r = some N ∧ ∀ r', r' ∈ c :: l → r' < r → hit r' = none) ↔
    (∃ r, r ∈ l ∧ hit r = some N ∧ ∀ r', r' ∈ l → r' < r → hit r' = none) := by
  constructor
  · rintro ⟨r, hr, hsome, hmin⟩
    rcases List.mem_cons.mp hr with rfl | hrl
    · rw [hc] at hsome; exact absurd hsome (by simp)
    · exact ⟨r, hrl, hsome, fun r' h1 h2 => hmin r' (List.mem_cons_of_mem _ h1) h2⟩
  · rintro ⟨r, hr, hsome, hmin⟩
    refine ⟨r, List.mem_cons_of_mem _ hr, hsome, ?_⟩
    intro r' h1 h2
    rcases List.mem_cons.mp h1 with rfl | h1l
    · exact hc
    · exact hmin r' h1l h2

/-! ## Unfolding equations for one iteration of the anchor-search loop -/

theorem searchGo_succ_hit (s : CommitRuleState) (t m c : Nat) (n0 : CertifiedNode)
    (hct : c < t) (hn : get_node_by_round_author s.dag c (s.get_anchor c) = some n0)
    (hv : check_votes_for_node s n0 = true) :
    searchGo s t (m + 1) c = ([c], some n0) := by
  unfold searchGo
  simp only [if_pos hct, hn]
  rw [if_pos hv]

theorem searchGo_succ_miss (s : CommitRuleState) (t m c : Nat) (n0 : CertifiedNode)
    (hct : c < t) (hn : get_node_by_round_author s.dag c (s.get_anchor c) = some n0)
    (hv : ¬ check_votes_for_node s n0 = true) :
    searchGo s t (m + 1) c =
      (c :: (searchGo s t m (c + 2)).1, (searchGo s t m (c + 2)).2) := by
  conv_lhs => unfold searchGo
  simp only [if_pos hct, hn]
  rw [if_neg hv]

theorem searchGo_succ_absent (s : CommitRuleState) (t m c : Nat)
    (hct : c < t) (hn : get_node_by_round_author s.dag c (s.get_anchor c) = none) :
    searchGo s t (m + 1) c =
      (c :: (searchGo s t m (c + 2)).1, (searchGo s t m (c + 2)).2) := by
  conv_lhs => unfold searchGo
  simp only [if_pos hct, hn]

theorem searchGo_succ_stop (s : CommitRuleState) (t m c : Nat) (hct : ¬ c < t) :
    searchGo s t (m + 1) c = ([], none) := by
  unfold searchGo
  simp only [if_neg hct]

/-! ## Characterization of the anchor-search result -/

theorem searchGo_some_iff (s : CommitRuleState) (t : Nat) :
    ∀ g c N, (searchGo s t g c).2 = some N ↔
      ∃ r, r ∈ stepTwoGo t g c ∧ anchor_hit s r = some N ∧
        ∀ r', r' ∈ stepTwoGo t g c → r' < r → anchor_hit s r' = none := by
  intro g
  induction g with
  | zero => intro c N; simp [searchGo, stepTwoGo]
  | succ m ih =>
    intro c N
    unfold searchGo stepTwoGo
    by_cases hct : c < t
    · rw [if_pos hct, if_pos hct]
      cases hn : get_node_by_round_author s.dag c (s.get_anchor c) with
      | some n0 =>
        have hhit : anchor_hit s c = if check_votes_for_node s n0 then some n0 else none := by
          unfold anchor_hit; rw [hn]
        by_cases hv : check_votes_for_node s n0
        · rw [if_pos hv] at hhit
          simp only [if_pos hv]
          constructor
          · intro h
            simp only [Option.some.injEq] at h
            subst h
            refine ⟨c, List.mem_cons_self _ _, hhit, ?_⟩
            intro r' hr' hlt
            rcases List.mem_cons.mp hr' with rfl | hr2
            · omega
            · have := (mem_stepTwoGo t m (c + 2) r' hr2).1
              omega
          · rintro ⟨r, hr, hsome, hmin⟩
            rcases List.mem_cons.mp hr with rfl | hr2
            · rw [hhit] at hsome
              exact hsome
            · have hcr : c < r := by
                have := (mem_stepTwoGo t m (c + 2) r hr2).1
                omega
              have := hmin c (List.mem_cons_self _ _) hcr
              rw [hhit] at this
              exact absurd this (by simp)
        · rw [if_neg hv] at hhit
          simp only [if_neg hv]
          rw [exists_min_cons hhit]
          exact ih (c + 2) N
      | none =>
        have hhit : anchor_hit s c = none := by
          unfold anchor_hit; rw [hn]
        rw [exists_min_cons hhit]
        exact ih (c + 2) N
    · rw [if_neg hct, if_neg hct]
      simp

theorem searchGo_none_iff (s : CommitRuleState) (t : Nat) :
    ∀ g c, (searchGo s t g c).2 = none ↔
      ∀ r ∈ stepTwoGo t g c, anchor_hit s r = none := by
  intro g
  induction g with
  | zero => intro c; simp [searchGo, stepTwoGo]
  | succ m ih =>
    intro c
    unfold searchGo stepTwoGo
    by_cases hct : c < t
    · rw [if_pos hct, if_pos hct]
      cases hn : get_node_by_round_author s.dag c (s.get_anchor c) with
      | some n0 =>
        have hhit : anchor_hit s c = if check_votes_for_node s n0 then some n0 else none := by
          unfold anchor_hit; rw [hn]
        by_cases hv : check_votes_for_node s n0
        · rw [if_pos hv] at hhit
          simp only [if_pos hv]
          constructor
          · intro h; exact absurd h (by simp)
          · intro h
            have := h c (List.mem_cons_self _ _)
            rw [hhit] at this
            exact absurd this (by simp)
        · rw [if_neg hv] at hhit
          simp only [if_neg hv]
          constructor
          · intro h r hr
            rcases List.mem_cons.mp hr with rfl | hr2
            · exact hhit
            · exact (ih (c + 2)).mp h r hr2
          · intro h
            exact (ih (c + 2)).mpr fun r hr => h r (List.mem_cons_of_mem _ hr)
      | none =>
        have hhit : anchor_hit s c = none := by
          unfold anchor_hit; rw [hn]
        constructor
        · intro h r hr
          rcases List.mem_cons.mp hr with rfl | hr2
          · exact hhit
          · exact (ih (c + 2)).mp h r hr2
        · intro h
          exact (ih (c + 2)).mpr fun r hr => h r (List.mem_cons_of_mem _ hr)
    · rw [if_neg hct, if_neg hct]
      simp

/-! ## The examined rounds (trace of the scan) -/

theorem mem_searchGo_trace (s : CommitRuleState) (t : Nat) :
    ∀ g c r, r ∈ (searchGo s t g c).1 → c ≤ r ∧ r < t ∧ r % 2 = c % 2 := by
  intro g
  induction g with
  | zero => intro c r h; simp [searchGo] at h
  | succ m ih =>
    intro c r h
    by_cases hct : c < t
    · cases hn : get_node_by_round_author s.dag c (s.get_anchor c) with
      | some n0 =>
        by_cases hv : check_votes_for_node s n0 = true
        · rw [searchGo_succ_hit s t m c n0 hct hn hv] at h
          rcases List.mem_singleton.mp h with rfl
          exact ⟨le_refl _, hct, rfl⟩
        · rw [searchGo_succ_miss s t m c n0 hct hn hv] at h
          rcases List.mem_cons.mp h with rfl | h2
          · exact ⟨le_refl _, hct, rfl⟩
          · obtain ⟨ha, hb, hp⟩ := ih (c + 2) r h2
            exact ⟨by omega, hb, by omega⟩
      | none =>
        rw [searchGo_succ_absent s t m c hct hn] at h
        rcases List.mem_cons.mp h with rfl | h2
        · exact ⟨le_refl _, hct, rfl⟩
        · obtain ⟨ha, hb, hp⟩ := ih (c + 2) r h2
          exact ⟨by omega, hb, by omega⟩
    · rw [searchGo_succ_stop s t m c hct] at h
      simp at h

theorem searchGo_trace_head (s : CommitRuleState) (t : Nat) :
    ∀ g c, c < t → 1 ≤ g → ((searchGo s t g c).1).head? = some c := by
  intro g c hct hg
  obtain ⟨m, rfl⟩ : ∃ m, g = m + 1 := ⟨g - 1, by omega⟩
  cases hn : get_node_by_round_author s.dag c (s.get_anchor c) with
  | some n0 =>
    by_cases hv : check_votes_for_node s n0 = true
    · rw [searchGo_succ_hit s t m c n0 hct hn hv]; rfl
    · rw [searchGo_succ_miss s t m c n0 hct hn hv]; rfl
  | none => rw [searchGo_succ_absent s t m c hct hn]; rfl

theorem searchGo_none_trace (s : CommitRuleState) (t : Nat) :
    ∀ g c, (searchGo s t g c).2 = none → (searchGo s t g c).1 = stepTwoGo t g c := by
  intro g
  induction g with
  | zero => intro c _; rfl
  | succ m ih =>
    intro c h
    unfold stepTwoGo
    by_cases hct : c < t
    · rw [if_pos hct]
      cases hn : get_node_by_round_author s.dag c (s.get_anchor c) with
      | some n0 =>
        by_cases hv : check_votes_for_node s n0 = true
        · rw [searchGo_succ_hit s t m c n0 hct hn hv] at h
          exact absurd h (by simp)
        · rw [searchGo_succ_miss s t m c n0 hct hn hv] at h ⊢
          simp only [List.cons.injEq, true_and]
          exact ih (c + 2) h
      | none =>
        rw [searchGo_succ_absent s t m c hct hn] at h ⊢
        simp only [List.cons.injEq, true_and]
        exact ih (c + 2) h
    · rw [if_neg hct]
      rw [searchGo_succ_stop s t m c hct]

/-- C3: `find_first_anchor_with_enough_votes(target_round)` scans the rounds
`lowest_unordered_round, lowest_unordered_round + 2, ...` strictly below the
target (the list `stepTwoRange`), returns `some N` exactly when `N` is the
elected node with enough votes at the smallest scanned round producing one,
and `none` exactly when no scanned round produces one. -/
theorem find_first_anchor_with_enough_votes_characterization
    (s : CommitRuleState) (t : Nat) :
    (∀ N, find_first_anchor_with_enough_votes s t = some N ↔
      ∃ r, r ∈ stepTwoRange s.lowest_unordered_round t ∧ anchor_hit s r = some N ∧
        ∀ r', r' ∈ stepTwoRange s.lowest_unordered_round t → r' < r →
          anchor_hit s r' = none) ∧
    (find_first_anchor_with_enough_votes s t = none ↔
      ∀ r ∈ stepTwoRange s.lowest_unordered_round t, anchor_hit s r = none) :=
  ⟨fun N => searchGo_some_iff s t _ _ N, searchGo_none_iff s t _ _⟩

/-- C4 counterexample: with the cursor at round 1 (one past the round-0
genesis commit) and anchor rounds even by the spec's stated convention, the
search towards target round 4 does not skip the first round: it examines
rounds 1 and 3 — the cursor's parity — and not the anchor-parity set `[2]`. -/
theorem anchor_search_does_not_skip_first_round :
    examinedRounds stE 4 = [1, 3] ∧
    stE.lowest_unordered_round % 2 ≠ 0 ∧
    examinedRounds stE 4 ≠ [2] := by decide

/-- C4 as amended: the search never skips a round.  Every round it examines
lies in `[lowest_unordered_round, target_round)` and has the parity of
`lowest_unordered_round` (whatever the anchor parity is); the first examined
round is `lowest_unordered_round` itself whenever the interval is nonempty;
and on a full scan (result `None`) the examined rounds are exactly
`lowest_unordered_round, lowest_unordered_round + 2, ...` up to the target. -/
theorem examinedRounds_follow_cursor_parity (s : CommitRuleState) (t : Nat) :
    (∀ r ∈ examinedRounds s t,
      s.lowest_unordered_round ≤ r ∧ r < t ∧ r % 2 = s.lowest_unordered_round % 2) ∧
    (s.lowest_unordered_round < t →
      (examinedRounds s t).head? = some s.lowest_unordered_round) ∧
    (find_first_anchor_with_enough_votes s t = none →
      examinedRounds s t = stepTwoRange s.lowest_unordered_round t) := by
  refine ⟨fun r hr => mem_searchGo_trace s t _ _ r hr, fun h => ?_,
    fun h => searchGo_none_trace s t _ _ h⟩
  exact searchGo_trace_head s t _ _ h (by omega)

/-! ## Round bounds of the search and backfill results -/

theorem searchGo_some_round (s : CommitRuleState) (t : Nat) :
    ∀ gas c N, (searchGo s t gas c).2 = some N → c ≤ N.round := by
  intro gas
  induction gas with
  | zero => intro c N h; simp [searchGo] at h
  | succ m ih =>
    intro c N h
    unfold searchGo at h
    split at h
    · split at h
      case h_1 anchorNode hn =>
        split at h
        · simp only [Option.some.injEq] at h
          subst h
          exact le_of_eq (get_node_by_round_author_spec hn).1.symm
        · exact Nat.le_of_succ_le (Nat.le_of_succ_le (ih (c + 2) N h))
      case h_2 hn =>
        exact Nat.le_of_succ_le (Nat.le_of_succ_le (ih (c + 2) N h))
    · simp at h

theorem find_first_anchor_round_ge {s : CommitRuleState} {t : Nat} {N : CertifiedNode}
    (h : find_first_anchor_with_enough_votes s t = some N) :
    s.lowest_unordered_round ≤ N.round :=
  searchGo_some_round s t _ _ N h

theorem backfillLoop_some_cases (s : CommitRuleState) (ar : Nat) :
    ∀ fuel cur res, backfillLoop s ar fuel cur = some res →
      res = cur ∨ s.lowest_unordered_round ≤ res.round := by
  intro fuel
  induction fuel with
  | zero => intro cur res h; simp [backfillLoop] at h
  | succ m ih =>
    intro cur res h
    unfold backfillLoop at h
    cases hf : (reachable s.dag cur (some s.lowest_unordered_round)).find?
        (fun n => is_anchor s ar n) with
    | none =>
      rw [hf] at h
      simp only [Option.some.injEq] at h
      exact Or.inl h.symm
    | some next =>
      rw [hf] at h
      rcases ih next res h with hc | hb
      · subst hc
        exact Or.inr (mem_reachable_round (List.mem_of_find?_eq_some hf))
      · exact Or.inr hb

/-- C9: across every terminating call to `new_node`, `lowest_unordered_round`
is monotone non-decreasing.  Each completed driver iteration sets the cursor
to `commit_anchor.round + 1`, and the commit anchor — whether it is the
direct anchor found by the search (which scans rounds at or above the
cursor) or a node the backfill loop picked from `reachable(...,
Some(lowest_unordered_round))` — sits at a round at or above the cursor. -/
theorem new_node_cursor_monotone :
    ∀ fuel (s : CommitRuleState) (node : CertifiedNode) (s' : CommitRuleState),
      new_node fuel s node = some s' →
      s.lowest_unordered_round ≤ s'.lowest_unordered_round := by
  intro fuel
  induction fuel with
  | zero => intro s node s' h; simp [new_node] at h
  | succ m ih =>
    intro s node s' h
    unfold new_node at h
    by_cases hle : s.lowest_unordered_round ≤ node.round
    · rw [if_pos hle] at h
      cases hfind : find_first_anchor_with_enough_votes s node.round with
      | none =>
        rw [hfind] at h
        simp only [Option.some.injEq] at h
        exact le_of_eq (congrArg CommitRuleState.lowest_unordered_round h)
      | some direct =>
        rw [hfind] at h
        simp only at h
        split at h
        next commitAnchor hbf =>
          have h1 := ih (finalize_order s commitAnchor) node s' h
          have h2 : (finalize_order s commitAnchor).lowest_unordered_round =
              commitAnchor.round + 1 := rfl
          have h3 : s.lowest_unordered_round ≤ commitAnchor.round := by
            rcases backfillLoop_some_cases s direct.round m direct commitAnchor hbf with
              hc | hb
            · rw [hc]; exact find_first_anchor_round_ge hfind
            · exact hb
          rw [h2] at h1
          exact le_trans (Nat.le_succ_of_le h3) h1
        next hbf => simp at h
    · rw [if_neg hle] at h
      simp only [Option.some.injEq] at h
      exact le_of_eq (congrArg CommitRuleState.lowest_unordered_round h)

/-- Witness for C9: a concrete call that returns (a node below the cursor),
instantiating the monotonicity theorem. -/
theorem new_node_cursor_monotone_witness :
    stA.lowest_unordered_round ≤ stA.lowest_unordered_round :=
  new_node_cursor_monotone 1 stA nodeLow stA rfl

/-- C10: a certified node at or below the cursor changes nothing: `new_node`
returns the state unchanged (so the cursor, `ordered_block_id`, every
ordered flag and the emission trace are as before), and in the boundary
case `node.round == lowest_unordered_round` the anchor search examines zero
rounds and returns `None`. -/
theorem new_node_at_or_below_cursor_noop (s : CommitRuleState) (node : CertifiedNode)
    (fuel : Nat) (h1 : node.round ≤ s.lowest_unordered_round) (h2 : 1 ≤ fuel) :
    new_node fuel s node = some s ∧
    (node.round = s.lowest_unordered_round →
      anchorSearchFrom s node.round s.lowest_unordered_round = ([], none)) := by
  have hscan : node.round = s.lowest_unordered_round →
      anchorSearchFrom s node.round s.lowest_unordered_round = ([], none) := by
    intro heq
    unfold anchorSearchFrom
    rw [heq, Nat.sub_self]
    rfl
  obtain ⟨f, rfl⟩ : ∃ f, fuel = f + 1 := ⟨fuel - 1, by omega⟩
  refine ⟨?_, hscan⟩
  by_cases hle : s.lowest_unordered_round ≤ node.round
  · have heq : node.round = s.lowest_unordered_round := Nat.le_antisymm h1 hle
    have hfind : find_first_anchor_with_enough_votes s node.round = none := by
      unfold find_first_anchor_with_enough_votes
      rw [hscan heq]
    simp only [new_node, hfind, if_pos hle]
  · simp only [new_node, if_neg hle]

/-- Witness for C10: the boundary case itself — `nodeA` sits exactly at
`stA`'s cursor (round 1). -/
theorem new_node_at_or_below_cursor_noop_witness :
    new_node 1 stA nodeA = some stA ∧
    (nodeA.round = stA.lowest_unordered_round →
      anchorSearchFrom stA nodeA.round stA.lowest_unordered_round = ([], none)) :=
  new_node_at_or_below_cursor_noop stA nodeA 1 (by decide) (by decide)

/-- C6: for an anchor at or above the cursor, `finalize_order` sets
`lowest_unordered_round` to `anchor.round + 1` and sets the ordered flag on
exactly the nodes `reachable_mut(anchor, None)` yields — every causal
ancestor of the anchor including the anchor itself — while every other
node's flag is unchanged; the hypothesis that the yielded nodes are still
unordered is the invariant under which the flags flip from `false` to
`true`. -/
theorem finalize_order_marks_exactly_the_closure
    (s : CommitRuleState) (anchor : CertifiedNode)
    (_hcur : s.lowest_unordered_round ≤ anchor.round)
    (hmem : anchor ∈ s.dag.nodes)
    (hunord : ∀ n ∈ reachable_mut s.dag anchor none,
      node_is_ordered s.dag n.digest = false) :
    (finalize_order s anchor).lowest_unordered_round = anchor.round + 1 ∧
    anchor ∈ reachable_mut s.dag anchor none ∧
    (∀ n ∈ reachable_mut s.dag anchor none,
      node_is_ordered s.dag n.digest = false ∧
      node_is_ordered (finalize_order s anchor).dag n.digest = true) ∧
    (∀ dg, dg ∉ (reachable_mut s.dag anchor none).map (fun n => n.digest) →
      node_is_ordered (finalize_order s anchor).dag dg = node_is_ordered s.dag dg) := by
  have hdag : (finalize_order s anchor).dag =
      mark_all_as_ordered s.dag ((reachable_mut s.dag anchor none).map (fun n => n.digest)) :=
    rfl
  refine ⟨rfl, start_mem_reachable hmem, ?_, ?_⟩
  · intro n hn
    refine ⟨hunord n hn, ?_⟩
    rw [hdag]
    unfold node_is_ordered mark_all_as_ordered
    rw [memD_append]
    have : memD n.digest ((reachable_mut s.dag anchor none).map (fun n => n.digest)) = true :=
      memD_eq_true_iff.mpr (List.mem_map_of_mem _ hn)
    simp [this]
  · intro dg hdg
    rw [hdag]
    unfold node_is_ordered mark_all_as_ordered
    rw [memD_append]
    have : memD dg ((reachable_mut s.dag anchor none).map (fun n => n.digest)) = false := by
      cases hmd : memD dg ((reachable_mut s.dag anchor none).map (fun n => n.digest)) with
      | false => rfl
      | true => exact absurd (memD_eq_true_iff.mp hmd) hdg
    simp [this]

/-- Witness for C6: the concrete anchor `nodeA` at `stA`'s cursor; its
causal closure is `[nodeA]` and only `nodeA`'s flag flips. -/
theorem finalize_order_marks_exactly_the_closure_witness :
    (finalize_order stA nodeA).lowest_unordered_round = nodeA.round + 1 ∧
    nodeA ∈ reachable_mut stA.dag nodeA none ∧
    (∀ n ∈ reachable_mut stA.dag nodeA none,
      node_is_ordered stA.dag n.digest = false ∧
      node_is_ordered (finalize_order stA nodeA).dag n.digest = true) ∧
    (∀ dg, dg ∉ (reachable_mut stA.dag nodeA none).map (fun n => n.digest) →
      node_is_ordered (finalize_order stA nodeA).dag dg = node_is_ordered stA.dag dg) :=
  finalize_order_marks_exactly_the_closure stA nodeA (by decide) (by decide) (by decide)

end DagCommit
